import Mathlib

/-!
Shallow embedding of the img-mcp server core (src/index.ts): the
PathValidator, retryWithBackoff, the metadata store operations
(saveMetadata / loadMetadata / deleteImage and the record-insertion step of
generateImage), and saveConfig / configureGeminiToken.

JavaScript strings are modelled as `List Char`; the POSIX behaviour of
Node's `path.resolve` / `path.sep` is modelled explicitly.  Fallible code
returns `Except`.  File-system effects are modelled by explicit state
(the set of existing files, the persisted JSON documents) threaded through
the operations.
-/

/-- JavaScript string, modelled as a list of characters. -/
abbrev Str := List Char

/-- POSIX path separator (`path.sep`). -/
def sep : Char := '/'

/-- The two-character parent-directory segment `..`. -/
def dotdotSeg : Str := ['.', '.']

/-- The one-character current-directory segment `.`. -/
def dotSeg : Str := ['.']

/-- JavaScript `String.prototype.includes('..')`: substring containment. -/
def containsSub (sub s : Str) : Bool := decide (sub <:+: s)

/-- `s.includes('..')` as used by `PathValidator.validateAndSanitize`. -/
def containsDotdot (s : Str) : Bool := containsSub dotdotSeg s

/-- A path is absolute iff it starts with the separator (POSIX). -/
def isAbsolute (p : Str) : Bool :=
  match p with
  | [] => false
  | c :: _ => c == sep

/-- Split a string on the separator character, keeping empty pieces,
exactly like `"a//b".split('/') = ["a", "", "b"]`. -/
def splitSegs : Str → List Str
  | [] => [[]]
  | c :: rest =>
    if c = sep then [] :: splitSegs rest
    else
      match splitSegs rest with
      | s :: ss => (c :: s) :: ss
      | [] => [[c]]

/-- One step of POSIX path normalization over a list of raw segments:
empty segments and `.` are dropped, `..` pops the last accepted segment
(at the root, `..` is discarded), anything else is kept. -/
def normStep (acc : List Str) (seg : Str) : List Str :=
  if seg = [] ∨ seg = dotSeg then acc
  else if seg = dotdotSeg then acc.dropLast
  else acc ++ [seg]

/-- Normalize the raw segments of an absolute path. -/
def normSegs (segs : List Str) : List Str := segs.foldl normStep []

/-- Join segments with the separator (`segs.join('/')`). -/
def joinSep : List Str → Str
  | [] => []
  | [s] => s
  | s :: rest => s ++ sep :: joinSep rest

/-- Render a normalized absolute path from its segments:
`render [] = "/"`, `render ["a","b"] = "/a/b"`. -/
def render (segs : List Str) : Str := sep :: joinSep segs

/-- Node's `path.resolve(p)` on POSIX with current working directory
`cwd`: an absolute argument is normalized on its own, a relative one is
appended to `cwd` first. -/
def pathResolve (cwd p : Str) : Str :=
  if isAbsolute p then render (normSegs (splitSegs p))
  else render (normSegs (splitSegs (cwd ++ sep :: p)))

/-- Segments of a canonical absolute path (non-empty pieces of the split). -/
def segsOf (s : Str) : List Str := (splitSegs s).filter (· ≠ [])

/-- Error codes of the tool-invocation transport (`ErrorCode` from the MCP
SDK) used by the implementation. -/
inductive MErrorCode where
  | invalidParams
  | invalidRequest
  | internalError
deriving DecidableEq, Repr

/-- `McpError`: an error carrying a transport error code and a message. -/
structure McpError where
  code : MErrorCode
  message : Str
deriving DecidableEq, Repr

/-- Message of the traversal rejection thrown by `validateAndSanitize`
(source: `Path contains directory traversal: ${filePath}. Paths must be
within allowed directories.`). -/
def traversalMsg (filePath : Str) : Str :=
  "Path contains directory traversal: ".data ++ filePath
    ++ ". Paths must be within allowed directories.".data

/-- Message of the containment rejection thrown by `validateAndSanitize`
(source: `Path not allowed: ${filePath}. Must be within:
${this.allowedDirectories.join(', ')}`). -/
def notAllowedMsg (allowedDirectories : List Str) (filePath : Str) : Str :=
  "Path not allowed: ".data ++ filePath ++ ". Must be within: ".data
    ++ joinSep2 allowedDirectories
where
  /-- `Array.prototype.join(', ')`. -/
  joinSep2 : List Str → Str
    | [] => []
    | [s] => s
    | s :: rest => s ++ ", ".data ++ joinSep2 rest

/-- The `PathValidator` class: its fixed list of allowed root directories,
plus the process working directory needed to model `path.resolve`. -/
structure PathValidator where
  allowedDirectories : List Str
  cwd : Str

/-- The `PathValidator` constructor: roots are the images directory, the
process working directory and the home directory. -/
def mkPathValidator (imagesDirectory cwd homedir : Str) : PathValidator :=
  ⟨[imagesDirectory, cwd, homedir], cwd⟩

/-- `PathValidator.validateAndSanitize` (src/index.ts lines 162-188):
resolve the input, reject if the resolved path contains the substring
`..`, then reject unless the resolved path equals an allowed directory or
extends one beyond a separator. -/
def validateAndSanitize (v : PathValidator) (filePath : Str) : Except McpError Str :=
  let resolvedPath := pathResolve v.cwd filePath
  if containsDotdot resolvedPath then
    .error ⟨.invalidParams, traversalMsg filePath⟩
  else
    let isAllowed := v.allowedDirectories.any fun allowedDir =>
      let resolvedAllowed := pathResolve v.cwd allowedDir
      (resolvedAllowed ++ [sep]).isPrefixOf resolvedPath
        || resolvedPath == resolvedAllowed
    if isAllowed then .ok resolvedPath
    else .error ⟨.invalidParams, notAllowedMsg v.allowedDirectories filePath⟩

deriving instance DecidableEq for Except

/-- `Except` success test. -/
def exceptIsOk {ε α : Type} : Except ε α → Bool
  | .ok _ => true
  | .error _ => false

/-- Drop the longest common prefix of two segment lists, returning the two
remainders (the segment-level core of Node's `path.relative`). -/
def dropCommonPrefix : List Str → List Str → List Str × List Str
  | [], bs => ([], bs)
  | a :: as, [] => (a :: as, [])
  | a :: as, b :: bs =>
    if a = b then dropCommonPrefix as bs else (a :: as, b :: bs)

/-- Relative path between two canonical absolute paths given as segment
lists: one `..` per remaining source segment, then the remaining target
segments (Node's `path.relative` on POSIX for canonical inputs). -/
def relativeSegs (fromSegs toSegs : List Str) : List Str :=
  let rest := dropCommonPrefix fromSegs toSegs
  rest.1.map (fun _ => dotdotSeg) ++ rest.2

/-- Stated from the spec's containment criterion: the candidate is under
the root iff the relative path from the root to the candidate neither
starts with a parent-directory segment nor is itself absolute. -/
def relOk (rootCanonical candCanonical : Str) : Bool :=
  let rel := relativeSegs (segsOf rootCanonical) (segsOf candCanonical)
  !(rel.headD [] == dotdotSeg) && !(isAbsolute (joinSep rel))

/-- Spec-side acceptance: the candidate path, canonicalized, is one of the
allowed roots or a strict descendant of one of them. -/
def specContainedAny (v : PathValidator) (p : Str) : Bool :=
  v.allowedDirectories.any fun d =>
    relOk (pathResolve v.cwd d) (pathResolve v.cwd p)

/-- A well-formed canonical path segment: non-empty, separator-free, and
not the parent-directory segment. -/
def GoodSeg (s : Str) : Prop := s ≠ [] ∧ sep ∉ s ∧ s ≠ dotdotSeg

/-- All segments are well-formed. -/
def GoodSegs (l : List Str) : Prop := ∀ s ∈ l, GoodSeg s

/-- Each segment followed by one separator — the tail of a canonical path
with a trailing separator appended (`joinSep l ++ [sep]` for `l ≠ []`). -/
def flat : List Str → Str
  | [] => []
  | s :: l => s ++ sep :: flat l

-- ===========================================================================
-- Retry with exponential backoff (src/index.ts lines 113-143)
-- ===========================================================================

/-- A failure raised by a retried operation: either an `McpError` from the
transport vocabulary or a plain JavaScript error. -/
inductive RetryError where
  | mcp (e : McpError)
  | jsError (message : Str)
deriving DecidableEq, Repr

/-- The classification in the catch block of `retryWithBackoff`: an
`McpError` whose code is `InvalidParams` or `InvalidRequest` is rethrown
immediately, everything else is retried. -/
def nonRetryable : RetryError → Bool
  | .mcp e => e.code == .invalidParams || e.code == .invalidRequest
  | .jsError _ => false

/-- Observable behaviour of one `retryWithBackoff` run: how many times the
operation was invoked, the delays awaited between attempts (in order), and
the final outcome. -/
structure RetryTrace (T : Type) where
  attempts : Nat
  delays : List Nat
  result : Except RetryError T
deriving DecidableEq, Repr

/-- The `for (let attempt = 0; attempt <= maxRetries; attempt++)` loop of
`retryWithBackoff`, with the operation modelled as a function of the
attempt index; `remaining` is fuel covering the iterations left. -/
def retryFrom {T : Type} (fn : Nat → Except RetryError T)
    (maxRetries initialDelay : Nat) : Nat → Nat → RetryTrace T
  | 0, _ => ⟨0, [], .error (.jsError "Unknown error".data)⟩
  | remaining + 1, attempt =>
    match fn attempt with
    | .ok v => ⟨1, [], .ok v⟩
    | .error e =>
      if nonRetryable e then ⟨1, [], .error e⟩
      else if attempt < maxRetries then
        let rest := retryFrom fn maxRetries initialDelay remaining (attempt + 1)
        ⟨rest.attempts + 1, initialDelay * 2 ^ attempt :: rest.delays, rest.result⟩
      else ⟨1, [], .error e⟩

/-- `retryWithBackoff(fn, maxRetries, initialDelay)`. -/
def retryWithBackoff {T : Type} (fn : Nat → Except RetryError T)
    (maxRetries initialDelay : Nat) : RetryTrace T :=
  retryFrom fn maxRetries initialDelay (maxRetries + 1) 0

-- ===========================================================================
-- Image metadata store (src/index.ts: imageMetadata map, saveMetadata,
-- loadMetadata, deleteImage, and the record-insertion step of generateImage)
-- ===========================================================================

/-- The `type` field of a record: `"generated" | "edited"`. -/
inductive ImageType where
  | generated
  | edited
deriving DecidableEq, Repr

/-- The `ImageMetadata` interface (src/index.ts lines 61-73). -/
structure ImageMetadata where
  id : Str
  filePath : Str
  uri : Str
  prompt : Str
  type : ImageType
  timestamp : Str
  model : Str
  format : Str
  size : Nat
  referenceImages : Option (List Str) := none
  parentImageId : Option Str := none
deriving DecidableEq, Repr

/-- The in-memory index `Map<string, ImageMetadata>`, as an insertion-order
association list. -/
abbrev MetadataMap := List (Str × ImageMetadata)

/-- `Map.prototype.set`: replace in place if the key exists, else append. -/
def mapSet (m : MetadataMap) (k : Str) (v : ImageMetadata) : MetadataMap :=
  if k ∈ m.map Prod.fst then m.map (fun p => if p.1 = k then (k, v) else p)
  else m ++ [(k, v)]

/-- `Map.prototype.get`. -/
def mapGet : MetadataMap → Str → Option ImageMetadata
  | [], _ => none
  | p :: rest, k => if p.1 = k then some p.2 else mapGet rest k

/-- `Map.prototype.delete`. -/
def mapDelete (m : MetadataMap) (k : Str) : MetadataMap :=
  m.filter fun p => p.1 ≠ k

/-- `Array.from(map.values())` in insertion order. -/
def mapValues (m : MetadataMap) : List ImageMetadata := m.map Prod.snd

/-- One `fs.writeFile` call: target path, the serialized record array, and
the permission mode passed in the options (none when no options given). -/
structure FileWrite where
  path : Str
  contents : List ImageMetadata
  mode : Option Nat
deriving DecidableEq, Repr

/-- `ImgMcp.saveMetadata` (src/index.ts lines 1524-1528): serialize all
in-memory records and write them to `.metadata.json` with no file-mode
option. -/
def saveMetadata (imagesDirectory : Str) (m : MetadataMap) : FileWrite :=
  ⟨imagesDirectory ++ sep :: ".metadata.json".data, mapValues m, none⟩

/-- `ImgMcp.loadMetadata` (src/index.ts lines 1530-1551): starting from an
empty index, admit each persisted record whose backing file still exists;
records whose files vanished are skipped. -/
def loadMetadata (persisted : List ImageMetadata) (fileExists : Str → Bool) : MetadataMap :=
  persisted.foldl
    (fun m meta => if fileExists meta.filePath then mapSet m meta.id meta else m) []

/-- An error escaping a mutating store operation: a thrown `McpError`, or a
failure of the metadata persist (`fs.writeFile` rejects). -/
inductive OpError where
  | mcp (e : McpError)
  | persistFailure (detail : Str)
deriving DecidableEq, Repr

/-- Server state touched by the store operations: the in-memory index, the
set of files existing on disk, and the last successfully persisted record
array. -/
structure ServerState where
  imageMetadata : MetadataMap
  files : List Str
  persistedMetadata : List ImageMetadata
deriving DecidableEq, Repr

/-- The `img://image/` URI prefix. -/
def uriPrefix : Str := "img://image/".data

/-- The id-extraction step of `deleteImage`: strip a leading
`img://image/` prefix. -/
def stripUriPrefix (imageId : Str) : Str :=
  if uriPrefix.isPrefixOf imageId then imageId.drop uriPrefix.length else imageId

/-- Message of the rejection for an unknown image id. -/
def notFoundMsg (id : Str) : Str := "Image not found: ".data ++ id

/-- Success message of `deleteImage`. -/
def deleteSuccessMsg (id : Str) : Str := "Image deleted successfully: ".data ++ id

/-- Result of one `deleteImage` call: the returned value or escaped error,
the state afterwards, and the warnings logged. -/
structure DeleteOutcome where
  result : Except OpError Str
  state : ServerState
  warnings : List Str
deriving DecidableEq, Repr

/-- `ImgMcp.deleteImage` (src/index.ts lines 1281-1316).  The environment
choice `persistFailure` is `none` when the `saveMetadata` write succeeds
and `some detail` when it rejects. -/
def deleteImage (st : ServerState) (imageId : Str) (persistFailure : Option Str) :
    DeleteOutcome :=
  let id := stripUriPrefix imageId
  match mapGet st.imageMetadata id with
  | none => ⟨.error (.mcp ⟨.invalidParams, notFoundMsg id⟩), st, []⟩
  | some metadata =>
    let unlinkOk := metadata.filePath ∈ st.files
    let files' := if unlinkOk then st.files.filter (· ≠ metadata.filePath) else st.files
    let warnings := if unlinkOk then [] else ["Failed to delete image file".data]
    let meta' := mapDelete st.imageMetadata id
    match persistFailure with
    | none => ⟨.ok (deleteSuccessMsg id), ⟨meta', files', mapValues meta'⟩, warnings⟩
    | some detail => ⟨.error (.persistFailure detail), ⟨meta', files', st.persistedMetadata⟩, warnings⟩

/-- The record-insertion tail of `ImgMcp.generateImage` (src/index.ts lines
899-930 with the catch of lines 964-970): after the image file is written,
the record is inserted into the in-memory index and `saveMetadata` runs; a
persist failure is wrapped into an `InternalError` McpError and rethrown,
without rolling back the insertion. -/
def recordGeneratedImage (st : ServerState) (meta : ImageMetadata)
    (persistFailure : Option Str) : Except OpError Unit × ServerState :=
  let files' := if meta.filePath ∈ st.files then st.files else st.files ++ [meta.filePath]
  let m' := mapSet st.imageMetadata meta.id meta
  match persistFailure with
  | none => (.ok (), ⟨m', files', mapValues m'⟩)
  | some detail =>
    (.error (.mcp ⟨.internalError, "Failed to generate image: ".data ++ detail⟩),
     ⟨m', files', st.persistedMetadata⟩)

-- ===========================================================================
-- Configuration persistence (src/index.ts: saveConfig, configureGeminiToken)
-- ===========================================================================

/-- The parsed `Config` object (ConfigSchema, src/index.ts lines 32-40). -/
structure Config where
  geminiApiKey : Str
  model : Str
  defaultFormat : Str
  outputDirectory : Option Str := none
  maxImageSize : Nat
  maxPromptLength : Nat
  maxReferenceImages : Nat
deriving DecidableEq, Repr

/-- Where the active configuration came from. -/
inductive ConfigSource where
  | environment
  | configFile
  | notConfigured
deriving DecidableEq, Repr

/-- The placeholder written instead of the key. -/
def redactedKey : Str := "[REDACTED]".data

/-- `ImgMcp.saveConfig` (src/index.ts lines 1513-1522), returning the
snapshot written to `.img-mcp-config.json` (`none` when nothing is
written): the API key is replaced by `[REDACTED]` only when the
configuration came from the environment. -/
def saveConfig (config : Option Config) (configSource : ConfigSource) : Option Config :=
  match config with
  | none => none
  | some c =>
    some (if configSource == .environment then { c with geminiApiKey := redactedKey } else c)

/-- The config object built by `configureGeminiToken` (src/index.ts lines
752-759). -/
def defaultConfigWith (apiKey : Str) : Config :=
  { geminiApiKey := apiKey
    model := "gemini-2.5-flash-image-preview".data
    defaultFormat := "png".data
    maxImageSize := 10 * 1024 * 1024
    maxPromptLength := 4000
    maxReferenceImages := 5 }

/-- `ImgMcp.configureGeminiToken` (src/index.ts lines 746-785), reduced to
its persistence effect: validate the key, set the configuration with
source `config_file`, and return the snapshot persisted by the
`saveConfig` call. -/
def configureGeminiToken (apiKey : Str) : Except McpError (Option Config) :=
  if apiKey = [] then
    .error ⟨.invalidParams, "Invalid API key: Gemini API key is required".data⟩
  else .ok (saveConfig (some (defaultConfigWith apiKey)) .configFile)

/-- Concrete record used in witness instantiations. -/
def recA : ImageMetadata :=
  { id := "a1".data, filePath := "/imgs/a.png".data, uri := "img://image/a1".data
    prompt := "red circle".data, type := .generated, timestamp := "t1".data
    model := "gemini-2.5-flash-image-preview".data, format := "png".data, size := 10 }

/-- Second concrete record used in witness instantiations. -/
def recB : ImageMetadata :=
  { id := "b2".data, filePath := "/imgs/b.png".data, uri := "img://image/b2".data
    prompt := "blue square".data, type := .edited, timestamp := "t2".data
    model := "gemini-2.5-flash-image-preview".data, format := "png".data, size := 20
    parentImageId := some "a1".data }

/-- Concrete server state used in witness instantiations: one record whose
backing file is already gone from disk. -/
def demoState : ServerState :=
  { imageMetadata := [("a1".data, recA)], files := [], persistedMetadata := [recA] }

-- ===========================================================================
-- Lemmas: canonical path segments
-- ===========================================================================

theorem splitSegs_sepFree : ∀ (s : Str), ∀ t ∈ splitSegs s, sep ∉ t := by
  intro s
  induction s with
  | nil =>
    intro t ht
    simp only [splitSegs, List.mem_singleton] at ht
    simp [ht]
  | cons c rest ih =>
    intro t ht
    by_cases hc : c = sep
    · rw [splitSegs, if_pos hc] at ht
      rcases List.mem_cons.mp ht with h | h
      · simp [h]
      · exact ih t h
    · rw [splitSegs, if_neg hc] at ht
      cases hrest : splitSegs rest with
      | nil =>
        rw [hrest] at ht
        have : t = [c] := List.mem_singleton.mp ht
        subst this
        intro hmem
        exact hc (List.mem_singleton.mp hmem).symm
      | cons s0 ss =>
        rw [hrest] at ht
        rcases List.mem_cons.mp ht with h | h
        · subst h
          intro hmem
          rcases List.mem_cons.mp hmem with h' | h'
          · exact hc h'.symm
          · exact ih s0 (hrest ▸ List.mem_cons_self _ _) h'
        · exact ih t (hrest ▸ List.mem_cons_of_mem _ h)

theorem goodSegs_normStep {acc : List Str} {seg : Str} (hacc : GoodSegs acc)
    (hseg : sep ∉ seg) : GoodSegs (normStep acc seg) := by
  unfold normStep
  split
  · exact hacc
  · split
    · intro s hs
      exact hacc s (List.dropLast_subset _ hs)
    · rename_i hne hdd
      intro s hs
      rcases List.mem_append.mp hs with h | h
      · exact hacc s h
      · have : s = seg := List.mem_singleton.mp h
        subst this
        exact ⟨fun h0 => hne (Or.inl h0), hseg, hdd⟩

theorem goodSegs_foldl_normStep :
    ∀ (segs : List Str) (acc : List Str),
      (∀ t ∈ segs, sep ∉ t) → GoodSegs acc → GoodSegs (segs.foldl normStep acc)
  | [], _acc, _, hacc => hacc
  | a :: l, acc, h, hacc =>
    goodSegs_foldl_normStep l (normStep acc a)
      (fun t ht => h t (List.mem_cons_of_mem _ ht))
      (goodSegs_normStep hacc (h a (List.mem_cons_self _ _)))

theorem goodSegs_normSegs (segs : List Str) (h : ∀ t ∈ segs, sep ∉ t) :
    GoodSegs (normSegs segs) :=
  goodSegs_foldl_normStep segs [] h (by intro s hs; exact absurd hs (List.not_mem_nil s))

theorem pathResolve_good (cwd p : Str) :
    ∃ l, GoodSegs l ∧ pathResolve cwd p = render l := by
  unfold pathResolve
  split
  · exact ⟨_, goodSegs_normSegs _ (splitSegs_sepFree p), rfl⟩
  · exact ⟨_, goodSegs_normSegs _ (splitSegs_sepFree (cwd ++ sep :: p)), rfl⟩

theorem splitSegs_of_sepFree : ∀ {s : Str}, sep ∉ s → splitSegs s = [s] := by
  intro s
  induction s with
  | nil => intro _; rfl
  | cons c rest ih =>
    intro h
    have hc : ¬(c = sep) := fun hh => h (hh ▸ List.mem_cons_self _ _)
    rw [splitSegs, if_neg hc, ih (fun hm => h (List.mem_cons_of_mem _ hm))]

theorem splitSegs_append_sep : ∀ (r t : Str), sep ∉ r →
    splitSegs (r ++ sep :: t) = r :: splitSegs t := by
  intro r
  induction r with
  | nil =>
    intro t _
    simp [splitSegs]
  | cons c r' ih =>
    intro t h
    have hc : ¬(c = sep) := fun hh => h (hh ▸ List.mem_cons_self _ _)
    rw [List.cons_append, splitSegs, if_neg hc,
      ih t (fun hm => h (List.mem_cons_of_mem _ hm))]

theorem joinSep_cons (s : Str) (l : List Str) (h : l ≠ []) :
    joinSep (s :: l) = s ++ sep :: joinSep l := by
  cases l with
  | nil => exact absurd rfl h
  | cons b m => rfl

theorem joinSep_ne_nil : ∀ {l : List Str}, GoodSegs l → l ≠ [] → joinSep l ≠ [] := by
  intro l hl hne
  cases l with
  | nil => exact absurd rfl hne
  | cons s m =>
    cases m with
    | nil =>
      show s ≠ []
      exact (hl s (List.mem_cons_self _ _)).1
    | cons b m' =>
      show s ++ sep :: joinSep (b :: m') ≠ []
      simp

theorem splitSegs_joinSep : ∀ (l : List Str), GoodSegs l → l ≠ [] →
    splitSegs (joinSep l) = l := by
  intro l
  induction l with
  | nil => intro _ h; exact absurd rfl h
  | cons s m ih =>
    intro hgood _
    cases m with
    | nil =>
      show splitSegs (joinSep [s]) = [s]
      exact splitSegs_of_sepFree (hgood s (List.mem_cons_self _ _)).2.1
    | cons b m' =>
      rw [joinSep_cons s (b :: m') (by simp),
        splitSegs_append_sep _ _ (hgood s (List.mem_cons_self _ _)).2.1,
        ih (fun t ht => hgood t (List.mem_cons_of_mem _ ht)) (by simp)]

theorem segsOf_render {l : List Str} (h : GoodSegs l) : segsOf (render l) = l := by
  unfold segsOf render
  cases hl : l with
  | nil => rfl
  | cons s m =>
    have : (sep :: joinSep (s :: m)) = ([] : Str) ++ sep :: joinSep (s :: m) := rfl
    rw [this, splitSegs_append_sep _ _ (by simp), splitSegs_joinSep (s :: m) (hl ▸ h) (by simp)]
    rw [List.filter_cons]
    simp only [ne_eq, decide_not]
    rw [List.filter_eq_self.mpr ?_]
    · simp
    · intro a ha
      have := (hl ▸ h) a ha
      simp [this.1]

theorem append_sep_prefix_iff : ∀ (a b u v : Str), sep ∉ a → sep ∉ b →
    ((a ++ sep :: u) <+: (b ++ sep :: v) ↔ a = b ∧ u <+: v) := by
  intro a
  induction a with
  | nil =>
    intro b u v _ hb
    cases b with
    | nil => simp
    | cons c b' =>
      have hc : c ≠ sep := fun hh => hb (hh ▸ List.mem_cons_self _ _)
      simp only [List.nil_append, List.cons_append, List.cons_prefix_cons]
      constructor
      · rintro ⟨h1, -⟩; exact absurd h1.symm hc
      · rintro ⟨h1, -⟩; exact List.noConfusion h1
  | cons x a' ih =>
    intro b u v ha hb
    cases b with
    | nil =>
      have hx : x ≠ sep := fun hh => ha (hh ▸ List.mem_cons_self _ _)
      simp only [List.cons_append, List.nil_append, List.cons_prefix_cons]
      constructor
      · rintro ⟨h1, -⟩; exact absurd h1 hx
      · rintro ⟨h1, -⟩; exact List.noConfusion h1
    | cons y b' =>
      simp only [List.cons_append, List.cons_prefix_cons]
      rw [ih b' u v (fun hm => ha (List.mem_cons_of_mem _ hm))
          (fun hm => hb (List.mem_cons_of_mem _ hm))]
      simp [List.cons.injEq, and_assoc]

theorem joinSep_append_sep : ∀ (l : List Str), l ≠ [] → joinSep l ++ [sep] = flat l := by
  intro l
  induction l with
  | nil => intro h; exact absurd rfl h
  | cons s m ih =>
    intro _
    cases m with
    | nil => rfl
    | cons b m' =>
      show (joinSep (s :: b :: m')) ++ [sep] = s ++ sep :: flat (b :: m')
      rw [joinSep_cons s (b :: m') (by simp), List.append_assoc, List.cons_append,
        ih (by simp)]

theorem flat_nonempty (s : Str) (l : List Str) : flat (s :: l) ≠ [] := by
  show s ++ sep :: flat l ≠ []
  simp

theorem flat_prefix_iff : ∀ (rs ps : List Str),
    (∀ s ∈ rs, sep ∉ s) → (∀ s ∈ ps, sep ∉ s) →
    (flat rs <+: flat ps ↔ rs <+: ps) := by
  intro rs
  induction rs with
  | nil => intro ps _ _; simp [flat]
  | cons r rs' ih =>
    intro ps hr hp
    cases ps with
    | nil =>
      simp only [flat, List.prefix_nil]
      constructor
      · intro h
        exact absurd h (by simp)
      · intro h
        exact List.noConfusion h
    | cons p ps' =>
      show (r ++ sep :: flat rs') <+: (p ++ sep :: flat ps') ↔ _
      rw [append_sep_prefix_iff r p (flat rs') (flat ps')
          (hr r (List.mem_cons_self _ _)) (hp p (List.mem_cons_self _ _)),
        ih ps' (fun s hs => hr s (List.mem_cons_of_mem _ hs))
          (fun s hs => hp s (List.mem_cons_of_mem _ hs)),
        List.cons_prefix_cons]

theorem render_append_sep {l : List Str} (h : l ≠ []) :
    render l ++ [sep] = sep :: flat l := by
  show (sep :: joinSep l) ++ [sep] = sep :: flat l
  rw [List.cons_append, joinSep_append_sep l h]

theorem render_eq_root_iff {l : List Str} (hg : GoodSegs l) :
    render l = [sep] ↔ l = [] := by
  constructor
  · intro h
    by_contra hne
    have : joinSep l = [] := by
      have := List.cons.inj h
      exact this.2
    exact joinSep_ne_nil hg hne this
  · intro h; subst h; rfl

theorem codeCheck_iff_prefix (rs ps : List Str) (hrs : GoodSegs rs)
    (hps : GoodSegs ps) (hne : rs ≠ []) :
    (((render rs ++ [sep]).isPrefixOf (render ps) || (render ps == render rs)) = true)
      ↔ rs <+: ps := by
  rw [Bool.or_eq_true, List.isPrefixOf_iff_prefix, beq_iff_eq]
  cases hp : ps with
  | nil =>
    constructor
    · rintro (h | h)
      · have hlen := h.length_le
        have h2 : joinSep rs ≠ [] := joinSep_ne_nil hrs hne
        have h3 : 1 ≤ (joinSep rs).length := List.length_pos.mpr h2
        simp only [render, List.length_append, List.length_cons,
          List.length_singleton, joinSep] at hlen
        omega
      · exact absurd ((render_eq_root_iff hrs).mp h.symm) hne
    · intro h
      exact absurd (List.prefix_nil.mp h) hne
  | cons p ps' =>
    have hpsne : ps ≠ [] := by simp [hp]
    subst hp
    constructor
    · rintro (h | h)
      · have h2 : (render rs ++ [sep]) <+: (render (p :: ps') ++ [sep]) :=
          h.trans (List.prefix_append _ _)
        rw [render_append_sep hne, render_append_sep hpsne] at h2
        rw [List.cons_prefix_cons] at h2
        exact (flat_prefix_iff rs (p :: ps') (fun s hs => (hrs s hs).2.1)
          (fun s hs => (hps s hs).2.1)).mp h2.2
      · have h2 : (render rs ++ [sep]) <+: (render (p :: ps') ++ [sep]) := by
          rw [h]
        rw [render_append_sep hne, render_append_sep hpsne] at h2
        rw [List.cons_prefix_cons] at h2
        exact (flat_prefix_iff rs (p :: ps') (fun s hs => (hrs s hs).2.1)
          (fun s hs => (hps s hs).2.1)).mp h2.2
    · intro h
      have h2 : flat rs <+: flat (p :: ps') :=
        (flat_prefix_iff rs (p :: ps') (fun s hs => (hrs s hs).2.1)
          (fun s hs => (hps s hs).2.1)).mpr h
      have h3 : (render rs ++ [sep]) <+: (render (p :: ps') ++ [sep]) := by
        rw [render_append_sep hne, render_append_sep hpsne]
        exact (List.cons_prefix_cons).mpr ⟨rfl, h2⟩
      by_cases hlen : (render rs ++ [sep]).length ≤ (render (p :: ps')).length
      · exact Or.inl ((List.isPrefix_append_of_length hlen).mp h3)
      · right
        have h4 : (render rs ++ [sep]).length = (render (p :: ps') ++ [sep]).length := by
          have := h3.length_le
          simp only [List.length_append, List.length_singleton] at *
          omega
        have h5 := h3.eq_of_length h4
        exact (List.append_cancel_right h5).symm

theorem dropCommonPrefix_fst_nil_iff : ∀ (f t : List Str),
    (dropCommonPrefix f t).1 = [] ↔ f <+: t
  | [], t => by simp [dropCommonPrefix]
  | a :: as, [] => by simp [dropCommonPrefix]
  | a :: as, b :: bs => by
    by_cases hab : a = b
    · rw [show dropCommonPrefix (a :: as) (b :: bs)
          = dropCommonPrefix as bs by simp [dropCommonPrefix, hab]]
      rw [dropCommonPrefix_fst_nil_iff as bs]
      simp [List.cons_prefix_cons, hab]
    · rw [show dropCommonPrefix (a :: as) (b :: bs)
          = (a :: as, b :: bs) by simp [dropCommonPrefix, hab]]
      simp [List.cons_prefix_cons, hab]

theorem dropCommonPrefix_snd_suffix : ∀ (f t : List Str),
    (dropCommonPrefix f t).2 <:+ t
  | [], _bs => List.suffix_rfl
  | _a :: _as, [] => List.suffix_rfl
  | a :: as, b :: bs => by
    by_cases hab : a = b
    · rw [show dropCommonPrefix (a :: as) (b :: bs)
          = dropCommonPrefix as bs by simp [dropCommonPrefix, hab]]
      exact (dropCommonPrefix_snd_suffix as bs).trans (List.suffix_cons b bs)
    · rw [show dropCommonPrefix (a :: as) (b :: bs)
          = (a :: as, b :: bs) by simp [dropCommonPrefix, hab]]

theorem isAbsolute_joinSep_cons {s : Str} (l : List Str) (hne : s ≠ [])
    (hsep : sep ∉ s) : isAbsolute (joinSep (s :: l)) = false := by
  cases s with
  | nil => exact absurd rfl hne
  | cons c s' =>
    have hc : c ≠ sep := fun h => hsep (h ▸ List.mem_cons_self _ _)
    cases l with
    | nil =>
      show isAbsolute (c :: s') = false
      simp [isAbsolute, hc]
    | cons b m =>
      rw [joinSep_cons _ (b :: m) (by simp), List.cons_append]
      simp [isAbsolute, hc]

theorem relOk_iff {f t : List Str} (hf : GoodSegs f) (ht : GoodSegs t) :
    (relOk (render f) (render t) = true) ↔ f <+: t := by
  unfold relOk relativeSegs
  rw [segsOf_render hf, segsOf_render ht]
  cases hfst : (dropCommonPrefix f t).1 with
  | nil =>
    have hpre : f <+: t := (dropCommonPrefix_fst_nil_iff f t).mp hfst
    simp only [hfst, List.map_nil, List.nil_append]
    cases hsnd : (dropCommonPrefix f t).2 with
    | nil => simp [joinSep, isAbsolute, hpre, dotdotSeg]
    | cons s rest =>
      have hsmem : s ∈ t :=
        (dropCommonPrefix_snd_suffix f t).subset (hsnd ▸ List.mem_cons_self _ _)
      have hgs := ht s hsmem
      have h2 := isAbsolute_joinSep_cons rest hgs.1 hgs.2.1
      simp [h2, hgs.2.2, hpre]
  | cons a rest =>
    have hnpre : ¬ f <+: t := fun h => by
      rw [(dropCommonPrefix_fst_nil_iff f t).mpr h] at hfst
      exact List.noConfusion hfst
    simp [hfst, hnpre]

theorem any_eq_of_mem {α : Type} (l : List α) (f g : α → Bool)
    (h : ∀ a ∈ l, f a = g a) : l.any f = l.any g := by
  induction l with
  | nil => rfl
  | cons a m ih =>
    simp only [List.any_cons, h a (List.mem_cons_self _ _),
      ih (fun b hb => h b (List.mem_cons_of_mem _ hb))]

theorem validateAndSanitize_eq (v : PathValidator) (p : Str) :
    validateAndSanitize v p =
      (if containsDotdot (pathResolve v.cwd p) then
        .error ⟨.invalidParams, traversalMsg p⟩
      else if (v.allowedDirectories.any fun d =>
          ((pathResolve v.cwd d ++ [sep]).isPrefixOf (pathResolve v.cwd p)
            || pathResolve v.cwd p == pathResolve v.cwd d)) then
        .ok (pathResolve v.cwd p)
      else .error ⟨.invalidParams, notAllowedMsg v.allowedDirectories p⟩) := rfl

theorem isAllowed_eq_specContained (v : PathValidator) (p : Str)
    (hroots : ∀ d ∈ v.allowedDirectories, segsOf (pathResolve v.cwd d) ≠ []) :
    (v.allowedDirectories.any fun d =>
      ((pathResolve v.cwd d ++ [sep]).isPrefixOf (pathResolve v.cwd p)
        || pathResolve v.cwd p == pathResolve v.cwd d))
      = specContainedAny v p := by
  obtain ⟨ps, hps, hR⟩ := pathResolve_good v.cwd p
  unfold specContainedAny
  apply any_eq_of_mem
  intro d hd
  obtain ⟨rs, hrs, hRd⟩ := pathResolve_good v.cwd d
  have hrsne : rs ≠ [] := by
    intro h0
    apply hroots d hd
    rw [hRd, segsOf_render hrs, h0]
  rw [hRd, hR]
  have h1 := codeCheck_iff_prefix rs ps hrs hps hrsne
  have h2 := relOk_iff hrs hps
  cases hb : ((render rs ++ [sep]).isPrefixOf (render ps) || (render ps == render rs)) with
  | true => exact (h2.mpr (h1.mp hb)).symm
  | false =>
    cases hc : relOk (render rs) (render ps) with
    | true => exact absurd (h1.mpr (h2.mp hc)) (by simp [hb])
    | false => rfl

-- ===========================================================================
-- Claim theorems: path validation
-- ===========================================================================

/-- C2 (amended): for every allowed root R and candidate P,
`validateAndSanitize(P)` succeeds iff the canonicalized P equals some
resolved R or is a strict descendant of some resolved R (strict
relative-path containment, not plain string-prefix matching) AND the
canonicalized P does not contain the substring `..`; the hypothesis
excludes the degenerate root `/`. -/
theorem validateAndSanitize_containment_iff (v : PathValidator) (p : Str)
    (hroots : ∀ d ∈ v.allowedDirectories, segsOf (pathResolve v.cwd d) ≠ []) :
    exceptIsOk (validateAndSanitize v p) = true ↔
      (specContainedAny v p = true ∧ containsDotdot (pathResolve v.cwd p) = false) := by
  rw [validateAndSanitize_eq, isAllowed_eq_specContained v p hroots]
  cases hdot : containsDotdot (pathResolve v.cwd p) with
  | true => simp [exceptIsOk]
  | false =>
    cases hspec : specContainedAny v p with
    | true => simp [exceptIsOk]
    | false => simp [exceptIsOk]

/-- C2 counterexample: with allowed root `/data/images`, the path
`/data/images/photo..png` is a strict descendant of the root (so the
claimed iff demands success), yet `validateAndSanitize` rejects it,
because the resolved path contains the substring `..`. -/
theorem validateAndSanitize_containment_counterexample :
    specContainedAny ⟨["/data/images".data], "/data/images".data⟩
        "/data/images/photo..png".data = true
    ∧ exceptIsOk (validateAndSanitize ⟨["/data/images".data], "/data/images".data⟩
        "/data/images/photo..png".data) = false := by
  decide

/-- C2 witness: instantiation of the containment theorem at root
`/data/images` and candidate `/data/images/sub/x`. -/
theorem validateAndSanitize_containment_iff_witness :
    (∀ d ∈ (PathValidator.mk ["/data/images".data] "/data/images".data).allowedDirectories,
      segsOf (pathResolve (PathValidator.mk ["/data/images".data] "/data/images".data).cwd d)
        ≠ [])
    ∧ (exceptIsOk (validateAndSanitize
        (PathValidator.mk ["/data/images".data] "/data/images".data)
        "/data/images/sub/x".data) = true ↔
      (specContainedAny (PathValidator.mk ["/data/images".data] "/data/images".data)
          "/data/images/sub/x".data = true
        ∧ containsDotdot (pathResolve
            (PathValidator.mk ["/data/images".data] "/data/images".data).cwd
            "/data/images/sub/x".data) = false)) :=
  ⟨by decide, validateAndSanitize_containment_iff _ _ (by decide)⟩

/-- C10: `validateAndSanitize` rejects every path whose resolved form
contains the substring `..` anywhere, raising the directory-traversal
error — even for file names such as `photo..png` that lie inside an
allowed root and contain no parent-directory segment. -/
theorem validateAndSanitize_rejects_dotdot_substring (v : PathValidator) (filePath : Str)
    (h : containsDotdot (pathResolve v.cwd filePath) = true) :
    validateAndSanitize v filePath = .error ⟨.invalidParams, traversalMsg filePath⟩ := by
  rw [validateAndSanitize_eq, h]
  simp

/-- C10 witness: `/data/images/photo..png` lies inside the allowed root
`/data/images`, yet it is rejected with the traversal error. -/
theorem validateAndSanitize_rejects_dotdot_substring_witness :
    containsDotdot (pathResolve
      (mkPathValidator "/data/images".data "/data/images".data "/home/u".data).cwd
      "/data/images/photo..png".data) = true
    ∧ validateAndSanitize
        (mkPathValidator "/data/images".data "/data/images".data "/home/u".data)
        "/data/images/photo..png".data
      = .error ⟨.invalidParams, traversalMsg "/data/images/photo..png".data⟩ :=
  ⟨by decide, validateAndSanitize_rejects_dotdot_substring _ _ (by decide)⟩

/-- C1 (code bug): the input `subdir/../photo.png` contains a literal `..`
segment before normalization, but `validateAndSanitize` resolves first and
checks `..` only on the resolved string, so the input is accepted (its
resolved form `/home/user/project/photo.png` lies inside the allowed root
`/home/user/project` and no longer contains `..`) — the claimed raw-string
rejection does not happen. -/
theorem rawDotdot_input_accepted :
    containsDotdot "subdir/../photo.png".data = true
    ∧ validateAndSanitize
        (mkPathValidator "/home/user/project/generated_imgs".data
          "/home/user/project".data "/home/user".data)
        "subdir/../photo.png".data = .ok "/home/user/project/photo.png".data := by
  decide

/-- C3 (code bug): the `PathDenied` message for the rejected path
`/etc/passwd` echoes both the rejected path and the full configured
allowed-root list, contradicting the claimed generic no-leak message. -/
theorem pathDenied_message_leaks :
    validateAndSanitize (mkPathValidator "/data/images".data "/cwd".data "/home/u".data)
        "/etc/passwd".data
      = .error ⟨.invalidParams,
          notAllowedMsg ["/data/images".data, "/cwd".data, "/home/u".data] "/etc/passwd".data⟩
    ∧ containsSub "/data/images".data
        (notAllowedMsg ["/data/images".data, "/cwd".data, "/home/u".data] "/etc/passwd".data)
        = true
    ∧ containsSub "/etc/passwd".data
        (notAllowedMsg ["/data/images".data, "/cwd".data, "/home/u".data] "/etc/passwd".data)
        = true := by
  decide

/-- C9 (code bug): every metadata persist calls `fs.writeFile` with no
options argument, so no restrictive owner-only file mode is set. -/
theorem saveMetadata_mode_none (imagesDirectory : Str) (m : MetadataMap) :
    (saveMetadata imagesDirectory m).mode = none := rfl

-- ===========================================================================
-- Claim theorems: retry with backoff
-- ===========================================================================

theorem retryFrom_succ {T : Type} (fn : Nat → Except RetryError T)
    (mr d r a : Nat) :
    retryFrom (T := T) fn mr d (r + 1) a
      = match fn a with
        | .ok v => ⟨1, [], .ok v⟩
        | .error e =>
          if nonRetryable e then ⟨1, [], .error e⟩
          else if a < mr then
            ⟨(retryFrom fn mr d r (a + 1)).attempts + 1,
             d * 2 ^ a :: (retryFrom fn mr d r (a + 1)).delays,
             (retryFrom fn mr d r (a + 1)).result⟩
          else ⟨1, [], .error e⟩ := rfl

theorem retryFrom_const_fail {T : Type} (e : RetryError) (he : nonRetryable e = false)
    (maxRetries initialDelay : Nat) :
    ∀ (k attempt : Nat), attempt + k = maxRetries →
      retryFrom (T := T) (fun _ => .error e) maxRetries initialDelay (k + 1) attempt
        = ⟨k + 1, (List.range' attempt k).map (fun j => initialDelay * 2 ^ j), .error e⟩ := by
  intro k
  induction k with
  | zero =>
    intro attempt h
    have ha : attempt = maxRetries := by omega
    subst ha
    simp [retryFrom, he]
  | succ k ih =>
    intro attempt h
    have hlt : attempt < maxRetries := by omega
    have ihh := ih (attempt + 1) (by omega)
    rw [retryFrom_succ]
    dsimp only
    rw [if_neg (by simp [he]), if_pos hlt, ihh]
    rw [show List.range' attempt (k + 1) = attempt :: List.range' (attempt + 1) k from rfl]
    simp

/-- C5 (amended): an operation that always fails with a retryable failure
is invoked exactly `maxRetries + 1` times (the parameter bounds retries,
not total attempts), with the delays before the retries forming the
doubling sequence `initialDelay * 2^k` for `k = 0 .. maxRetries-1`, and
the last observed failure is propagated; an operation failing with a
non-retryable (invalid-parameters-class) failure is invoked exactly once
and its failure propagates immediately with no delay. -/
theorem retryWithBackoff_semantics {T : Type} (e : RetryError)
    (maxRetries initialDelay : Nat) (he : nonRetryable e = false)
    (enr : RetryError) (hnr : nonRetryable enr = true) :
    retryWithBackoff (T := T) (fun _ => .error e) maxRetries initialDelay
      = ⟨maxRetries + 1,
         (List.range maxRetries).map (fun k => initialDelay * 2 ^ k), .error e⟩
    ∧ retryWithBackoff (T := T) (fun _ => .error enr) maxRetries initialDelay
      = ⟨1, [], .error enr⟩ := by
  constructor
  · unfold retryWithBackoff
    rw [retryFrom_const_fail e he maxRetries initialDelay maxRetries 0 (by omega)]
    rw [List.range_eq_range']
  · unfold retryWithBackoff
    simp [retryFrom, hnr]

/-- C5 counterexample: with `maxRetries = 3`, an always-retryably-failing
operation is invoked 4 times, not the 3 times the claim states for the
`maxAttempts` parameter. -/
theorem retry_attempt_count_counterexample :
    (retryWithBackoff (T := Unit) (fun _ => .error (.jsError "network".data)) 3 100).attempts
      = 4
    ∧ (retryWithBackoff (T := Unit) (fun _ => .error (.jsError "network".data)) 3 100).attempts
      ≠ 3 := by
  decide

/-- C5 witness: instantiation at `maxRetries = 3`, `initialDelay = 100`,
a retryable network error and a non-retryable invalid-params error. -/
theorem retryWithBackoff_semantics_witness :
    nonRetryable (.jsError "network".data) = false
    ∧ nonRetryable (.mcp ⟨.invalidParams, "bad".data⟩) = true
    ∧ (retryWithBackoff (T := Unit) (fun _ => .error (.jsError "network".data)) 3 100
        = ⟨3 + 1, (List.range 3).map (fun k => 100 * 2 ^ k), .error (.jsError "network".data)⟩
      ∧ retryWithBackoff (T := Unit)
          (fun _ => .error (.mcp ⟨.invalidParams, "bad".data⟩)) 3 100
        = ⟨1, [], .error (.mcp ⟨.invalidParams, "bad".data⟩)⟩) :=
  ⟨by decide, by decide,
    retryWithBackoff_semantics (.jsError "network".data) 3 100 (by decide)
      (.mcp ⟨.invalidParams, "bad".data⟩) (by decide)⟩

-- ===========================================================================
-- Claim theorems: metadata store round trip
-- ===========================================================================

theorem mapSet_append {m : MetadataMap} {k : Str} {v : ImageMetadata}
    (h : k ∉ m.map Prod.fst) : mapSet m k v = m ++ [(k, v)] := by
  unfold mapSet
  rw [if_neg h]

theorem loadMetadata_foldl (F : Str → Bool) :
    ∀ (arr : List ImageMetadata) (acc : MetadataMap),
      (∀ meta ∈ arr, meta.id ∉ acc.map Prod.fst) →
      (arr.map (fun meta => meta.id)).Nodup →
      arr.foldl (fun m meta => if F meta.filePath then mapSet m meta.id meta else m) acc
        = acc ++ (arr.filter (fun meta => F meta.filePath)).map (fun meta => (meta.id, meta))
  | [], acc, _, _ => by simp
  | a :: l, acc, hfresh, hnodup => by
    have hanotl : ∀ meta ∈ l, meta.id ≠ a.id := by
      intro meta hm heq
      have : a.id ∈ l.map (fun meta => meta.id) := by
        rw [← heq]
        exact List.mem_map_of_mem _ hm
      exact (List.nodup_cons.mp (by simpa using hnodup)).1 this
    have hnodup' : (l.map (fun meta => meta.id)).Nodup :=
      (List.nodup_cons.mp (by simpa using hnodup)).2
    simp only [List.foldl_cons, List.filter_cons]
    cases hF : F a.filePath with
    | true =>
      rw [if_pos (by simp [hF]),
        mapSet_append (hfresh a (List.mem_cons_self _ _)),
        loadMetadata_foldl F l (acc ++ [(a.id, a)]) ?_ hnodup']
      · simp
      · intro meta hm
        simp only [List.map_append, List.mem_append]
        rintro (h1 | h1)
        · exact hfresh meta (List.mem_cons_of_mem _ hm) h1
        · simp only [List.map_cons, List.map_nil, List.mem_singleton] at h1
          exact hanotl meta hm h1
    | false =>
      rw [if_neg (by simp [hF]),
        loadMetadata_foldl F l acc
          (fun meta hm => hfresh meta (List.mem_cons_of_mem _ hm)) hnodup']
      simp [hF]

theorem filter_map_snd (g : ImageMetadata → Bool) :
    ∀ (m : MetadataMap), (∀ p ∈ m, p.1 = p.2.id) →
      ((m.map Prod.snd).filter g).map (fun meta => (meta.id, meta))
        = m.filter (fun p => g p.2)
  | [], _ => rfl
  | p :: m', h => by
    have hp := h p (List.mem_cons_self _ _)
    have ih := filter_map_snd g m' (fun q hq => h q (List.mem_cons_of_mem _ hq))
    simp only [List.map_cons, List.filter_cons]
    cases hg : g p.2 with
    | true => simp [hg, ih, ← hp]
    | false => simp [hg, ih]

/-- C6: persisting the in-memory index with `saveMetadata` and then
loading the persisted array in a fresh process with `loadMetadata` yields
an in-memory index equal, entry by entry, to the pre-persist index
restricted to the records whose backing image files still exist; records
whose files vanished are silently dropped. -/
theorem metadata_roundtrip (imagesDirectory : Str) (m : MetadataMap) (F : Str → Bool)
    (hids : ∀ p ∈ m, p.1 = p.2.id) (hnodup : (m.map Prod.fst).Nodup) :
    loadMetadata (saveMetadata imagesDirectory m).contents F
      = m.filter (fun p => F p.2.filePath) := by
  show loadMetadata (mapValues m) F = _
  unfold loadMetadata mapValues
  have hkeys : (m.map Prod.snd).map (fun meta => meta.id) = m.map Prod.fst := by
    rw [List.map_map]
    exact List.map_congr_left (fun p hp => (hids p hp).symm)
  rw [loadMetadata_foldl F (m.map Prod.snd) [] (fun meta _ => List.not_mem_nil _)
    (by rw [hkeys]; exact hnodup)]
  rw [List.nil_append]
  exact filter_map_snd (fun meta => F meta.filePath) m hids

/-- C6 witness: a two-record index round-trips to just the record whose
backing file still exists. -/
theorem metadata_roundtrip_witness :
    (∀ p ∈ ([(("a1".data : Str), recA), (("b2".data : Str), recB)] : MetadataMap),
        p.1 = p.2.id)
    ∧ ((([(("a1".data : Str), recA), (("b2".data : Str), recB)] : MetadataMap).map
        Prod.fst).Nodup)
    ∧ loadMetadata
        (saveMetadata "/imgs".data [(("a1".data : Str), recA), (("b2".data : Str), recB)]).contents
        (fun f => f == "/imgs/a.png".data)
      = ([(("a1".data : Str), recA), (("b2".data : Str), recB)] : MetadataMap).filter
          (fun p => p.2.filePath == "/imgs/a.png".data) :=
  ⟨by decide, by decide,
    metadata_roundtrip "/imgs".data _ _ (by decide) (by decide)⟩

-- ===========================================================================
-- Claim theorems: delete and persist-failure semantics
-- ===========================================================================

theorem mapGet_mapDelete : ∀ (m : MetadataMap) (k : Str),
    mapGet (mapDelete m k) k = none
  | [], _ => rfl
  | p :: rest, k => by
    unfold mapDelete
    rw [List.filter_cons]
    by_cases h : p.1 = k
    · rw [if_neg (by simp [h])]
      exact mapGet_mapDelete rest k
    · rw [if_pos (by simp [h])]
      show mapGet (p :: List.filter _ rest) k = none
      rw [show mapGet (p :: List.filter (fun p => decide ¬p.1 = k) rest) k
          = if p.1 = k then some p.2 else mapGet (List.filter (fun p => decide ¬p.1 = k) rest) k
          from rfl, if_neg h]
      exact mapGet_mapDelete rest k

theorem mapGet_replace (k : Str) (v : ImageMetadata) :
    ∀ (m : MetadataMap), k ∈ m.map Prod.fst →
      mapGet (m.map (fun p => if p.1 = k then (k, v) else p)) k = some v
  | [], h => by simp at h
  | p :: rest, h => by
    by_cases hp : p.1 = k
    · simp only [List.map_cons, if_pos hp]
      rw [show mapGet ((k, v) :: rest.map (fun p => if p.1 = k then (k, v) else p)) k
          = if (k, v).1 = k then some (k, v).2 else mapGet (rest.map _) k from rfl,
        if_pos rfl]
    · have hmem : k ∈ rest.map Prod.fst := by
        rw [List.map_cons] at h
        rcases List.mem_cons.mp h with h1 | h1
        · exact absurd h1.symm hp
        · exact h1
      simp only [List.map_cons, if_neg hp]
      rw [show mapGet (p :: rest.map (fun p => if p.1 = k then (k, v) else p)) k
          = if p.1 = k then some p.2
            else mapGet (rest.map (fun p => if p.1 = k then (k, v) else p)) k from rfl,
        if_neg hp]
      exact mapGet_replace k v rest hmem

theorem mapGet_append_new (k : Str) (v : ImageMetadata) :
    ∀ (m : MetadataMap), k ∉ m.map Prod.fst →
      mapGet (m ++ [(k, v)]) k = some v
  | [], _ => by
    rw [List.nil_append]
    rw [show mapGet [(k, v)] k
        = if (k, v).1 = k then some (k, v).2 else mapGet [] k from rfl, if_pos rfl]
  | p :: rest, h => by
    have hp : ¬(p.1 = k) := fun h0 =>
      h (by rw [List.map_cons, h0]; exact List.mem_cons_self _ _)
    rw [List.cons_append]
    rw [show mapGet (p :: (rest ++ [(k, v)])) k
        = if p.1 = k then some p.2 else mapGet (rest ++ [(k, v)]) k from rfl, if_neg hp]
    exact mapGet_append_new k v rest
      (fun hm => h (by rw [List.map_cons]; exact List.mem_cons_of_mem _ hm))

theorem mapGet_mapSet (m : MetadataMap) (k : Str) (v : ImageMetadata) :
    mapGet (mapSet m k v) k = some v := by
  unfold mapSet
  by_cases h : k ∈ m.map Prod.fst
  · rw [if_pos h]
    exact mapGet_replace k v m h
  · rw [if_neg h]
    exact mapGet_append_new k v m h

theorem deleteImage_none (st : ServerState) (rawId : Str) (pf : Option Str)
    (h : mapGet st.imageMetadata (stripUriPrefix rawId) = none) :
    deleteImage st rawId pf
      = ⟨.error (.mcp ⟨.invalidParams, notFoundMsg (stripUriPrefix rawId)⟩), st, []⟩ := by
  simp only [deleteImage]
  rw [h]

theorem deleteImage_some_ok (st : ServerState) (rawId : Str) (meta : ImageMetadata)
    (h : mapGet st.imageMetadata (stripUriPrefix rawId) = some meta) :
    deleteImage st rawId none
      = ⟨.ok (deleteSuccessMsg (stripUriPrefix rawId)),
         ⟨mapDelete st.imageMetadata (stripUriPrefix rawId),
          if meta.filePath ∈ st.files then st.files.filter (· ≠ meta.filePath) else st.files,
          mapValues (mapDelete st.imageMetadata (stripUriPrefix rawId))⟩,
         if meta.filePath ∈ st.files then [] else ["Failed to delete image file".data]⟩ := by
  simp only [deleteImage]
  rw [h]

theorem deleteImage_some_fail (st : ServerState) (rawId : Str) (meta : ImageMetadata)
    (detail : Str) (h : mapGet st.imageMetadata (stripUriPrefix rawId) = some meta) :
    deleteImage st rawId (some detail)
      = ⟨.error (.persistFailure detail),
         ⟨mapDelete st.imageMetadata (stripUriPrefix rawId),
          if meta.filePath ∈ st.files then st.files.filter (· ≠ meta.filePath) else st.files,
          st.persistedMetadata⟩,
         if meta.filePath ∈ st.files then [] else ["Failed to delete image file".data]⟩ := by
  simp only [deleteImage]
  rw [h]

/-- C7: deleting an id absent from the store fails with the not-found
rejection and leaves the whole state (in-memory index, files, persisted
file) unchanged; deleting an existing id whose backing file is already
gone still succeeds — the unlink failure is a non-fatal warning — removes
the in-memory entry and persists the updated index; deleting the same id
again yields the not-found rejection. -/
theorem deleteImage_semantics (st : ServerState) (rawId : Str) :
    (mapGet st.imageMetadata (stripUriPrefix rawId) = none →
      ∀ pf, deleteImage st rawId pf
        = ⟨.error (.mcp ⟨.invalidParams, notFoundMsg (stripUriPrefix rawId)⟩), st, []⟩)
    ∧ (∀ meta, mapGet st.imageMetadata (stripUriPrefix rawId) = some meta →
        meta.filePath ∉ st.files →
        (deleteImage st rawId none).result = .ok (deleteSuccessMsg (stripUriPrefix rawId))
        ∧ (deleteImage st rawId none).warnings = ["Failed to delete image file".data]
        ∧ (deleteImage st rawId none).state.files = st.files
        ∧ mapGet (deleteImage st rawId none).state.imageMetadata (stripUriPrefix rawId) = none
        ∧ (deleteImage st rawId none).state.persistedMetadata
            = mapValues (deleteImage st rawId none).state.imageMetadata
        ∧ ∀ pf, (deleteImage (deleteImage st rawId none).state rawId pf).result
            = .error (.mcp ⟨.invalidParams, notFoundMsg (stripUriPrefix rawId)⟩)) := by
  constructor
  · intro h pf
    exact deleteImage_none st rawId pf h
  · intro meta h hfile
    rw [deleteImage_some_ok st rawId meta h]
    rw [if_neg hfile, if_neg hfile]
    refine ⟨rfl, rfl, rfl, mapGet_mapDelete _ _, rfl, ?_⟩
    intro pf
    rw [deleteImage_none _ rawId pf (mapGet_mapDelete _ _)]

/-- C7 witness: instantiation at a one-record store whose backing file is
already gone. -/
theorem deleteImage_semantics_witness :
    mapGet demoState.imageMetadata (stripUriPrefix "a1".data) = some recA
    ∧ recA.filePath ∉ demoState.files
    ∧ ((deleteImage demoState "a1".data none).result
        = .ok (deleteSuccessMsg (stripUriPrefix "a1".data))
      ∧ (deleteImage demoState "a1".data none).warnings
        = ["Failed to delete image file".data]
      ∧ (deleteImage demoState "a1".data none).state.files = demoState.files
      ∧ mapGet (deleteImage demoState "a1".data none).state.imageMetadata
          (stripUriPrefix "a1".data) = none
      ∧ (deleteImage demoState "a1".data none).state.persistedMetadata
          = mapValues (deleteImage demoState "a1".data none).state.imageMetadata
      ∧ ∀ pf, (deleteImage (deleteImage demoState "a1".data none).state "a1".data pf).result
          = .error (.mcp ⟨.invalidParams, notFoundMsg (stripUriPrefix "a1".data)⟩)) :=
  ⟨by decide, by decide,
    (deleteImage_semantics demoState "a1".data).2 recA (by decide) (by decide)⟩

theorem recordGeneratedImage_fail_eq (st : ServerState) (meta : ImageMetadata)
    (detail : Str) :
    recordGeneratedImage st meta (some detail)
      = (.error (.mcp ⟨.internalError, "Failed to generate image: ".data ++ detail⟩),
         ⟨mapSet st.imageMetadata meta.id meta,
          if meta.filePath ∈ st.files then st.files else st.files ++ [meta.filePath],
          st.persistedMetadata⟩) := rfl

/-- C8: when the persist triggered by a mutating store operation fails,
the failure is surfaced to the caller of that operation while the
in-memory mutation is not rolled back: after a failed persist during
record insertion the index still contains the new record, and after a
failed persist during deletion the index no longer contains the deleted
record, while the on-disk metadata file is unchanged in both cases. -/
theorem persistFailure_surfaced_no_rollback (st : ServerState) (meta : ImageMetadata)
    (rawId detail : Str) :
    (exceptIsOk (recordGeneratedImage st meta (some detail)).1 = false
      ∧ mapGet (recordGeneratedImage st meta (some detail)).2.imageMetadata meta.id
          = some meta
      ∧ (recordGeneratedImage st meta (some detail)).2.persistedMetadata
          = st.persistedMetadata)
    ∧ (∀ m, mapGet st.imageMetadata (stripUriPrefix rawId) = some m →
        exceptIsOk (deleteImage st rawId (some detail)).result = false
        ∧ mapGet (deleteImage st rawId (some detail)).state.imageMetadata
            (stripUriPrefix rawId) = none
        ∧ (deleteImage st rawId (some detail)).state.persistedMetadata
            = st.persistedMetadata) := by
  constructor
  · rw [recordGeneratedImage_fail_eq]
    exact ⟨rfl, mapGet_mapSet _ _ _, rfl⟩
  · intro m hm
    rw [deleteImage_some_fail st rawId m detail hm]
    exact ⟨rfl, mapGet_mapDelete _ _, rfl⟩

/-- C8 witness: instantiation at the one-record store, with a failing
persist while inserting a new record and while deleting the old one. -/
theorem persistFailure_surfaced_no_rollback_witness :
    mapGet demoState.imageMetadata (stripUriPrefix "a1".data) = some recA
    ∧ (exceptIsOk (recordGeneratedImage demoState recB (some "disk full".data)).1 = false
      ∧ mapGet (recordGeneratedImage demoState recB (some "disk full".data)).2.imageMetadata
          recB.id = some recB
      ∧ (recordGeneratedImage demoState recB (some "disk full".data)).2.persistedMetadata
          = demoState.persistedMetadata)
    ∧ (exceptIsOk (deleteImage demoState "a1".data (some "disk full".data)).result = false
      ∧ mapGet (deleteImage demoState "a1".data (some "disk full".data)).state.imageMetadata
          (stripUriPrefix "a1".data) = none
      ∧ (deleteImage demoState "a1".data (some "disk full".data)).state.persistedMetadata
          = demoState.persistedMetadata) :=
  ⟨by decide,
   (persistFailure_surfaced_no_rollback demoState recB "a1".data "disk full".data).1,
   (persistFailure_surfaced_no_rollback demoState recB "a1".data "disk full".data).2
     recA (by decide)⟩

-- ===========================================================================
-- Claim theorems: configuration snapshot redaction
-- ===========================================================================

/-- C4 counterexample: a credential configured through the
`configure_gemini_token` tool (configuration source `config_file`) is
persisted in full by `saveConfig` — the stored snapshot carries the
unredacted key, refuting redaction for every configuration source. -/
theorem saveConfig_fullKey_counterexample :
    configureGeminiToken "AIzaSyDemoSecretKey".data
      = .ok (some (defaultConfigWith "AIzaSyDemoSecretKey".data))
    ∧ (defaultConfigWith "AIzaSyDemoSecretKey".data).geminiApiKey
      = "AIzaSyDemoSecretKey".data
    ∧ (defaultConfigWith "AIzaSyDemoSecretKey".data).geminiApiKey ≠ redactedKey := by
  decide

/-- C4 (amended): a persisted configuration snapshot redacts the API
credential exactly when the configuration came from the environment; when
the credential was configured at runtime (source `config_file`, as set by
`configureGeminiToken`) the snapshot is persisted with the full key. -/
theorem saveConfig_redacts_iff_environment (c : Config) :
    saveConfig (some c) .environment = some { c with geminiApiKey := redactedKey }
    ∧ saveConfig (some c) .configFile = some c
    ∧ (∀ apiKey : Str, apiKey ≠ [] →
        configureGeminiToken apiKey = .ok (some (defaultConfigWith apiKey))) := by
  refine ⟨rfl, rfl, ?_⟩
  intro apiKey h
  unfold configureGeminiToken
  rw [if_neg h]
  rfl

/-- C4 witness: instantiation at a concrete key. -/
theorem saveConfig_redacts_iff_environment_witness :
    ("AIzaSyOtherKey".data : Str) ≠ []
    ∧ saveConfig (some (defaultConfigWith "AIzaSyOtherKey".data)) .environment
        = some { defaultConfigWith "AIzaSyOtherKey".data with geminiApiKey := redactedKey }
    ∧ saveConfig (some (defaultConfigWith "AIzaSyOtherKey".data)) .configFile
        = some (defaultConfigWith "AIzaSyOtherKey".data)
    ∧ configureGeminiToken "AIzaSyOtherKey".data
        = .ok (some (defaultConfigWith "AIzaSyOtherKey".data)) :=
  ⟨by decide,
   (saveConfig_redacts_iff_environment (defaultConfigWith "AIzaSyOtherKey".data)).1,
   (saveConfig_redacts_iff_environment (defaultConfigWith "AIzaSyOtherKey".data)).2.1,
   (saveConfig_redacts_iff_environment (defaultConfigWith "AIzaSyOtherKey".data)).2.2
     "AIzaSyOtherKey".data (by decide)⟩

/-- Supporting fact: the sibling directory `/data/images-other/x`, whose
name extends the allowed root `/data/images` as a string, is rejected,
while the true descendant `/data/images/sub/x` is accepted. -/
theorem sibling_prefix_rejected :
    exceptIsOk (validateAndSanitize ⟨["/data/images".data], "/data/images".data⟩
      "/data/images-other/x".data) = false
    ∧ validateAndSanitize ⟨["/data/images".data], "/data/images".data⟩
      "/data/images/sub/x".data = .ok "/data/images/sub/x".data := by
  decide
